import Mathlib

/-!
Verification of the GitHub storage backend (omnistorage-github).

The Go sources are shallowly embedded: strings are lists of characters,
every pure helper (`validatePath`, `normalizePath`, the commit-message
formatting of `Delete`) is translated directly, and each networked
operation (`writer.Close`, `Backend.Delete`, `Backend.List`,
`Backend.Exists`, `Batch.Commit`) becomes a function over an explicit
"world" record that supplies the outcome of every remote call the code
makes, in the order the code makes them.  The remote tree-construction
semantics of the Git Data API (merge by path, last entry wins, an entry
with no blob SHA removes the path) is external to the repository and is
modelled from its documented behaviour.
-/

set_option autoImplicit false

namespace OmniGitHub

/-- Strings are modelled as lists of characters. -/
abbrev Str := List Char

/-- Models Go `strings.HasPrefix s pat` (is `pat` a prefix of `s`). -/
def hasPre : Str → Str → Bool
  | _, [] => true
  | [], _ :: _ => false
  | c :: s, d :: t => if c = d then hasPre s t else false

/-- Models Go `strings.Contains s pat` (does `pat` occur inside `s`). -/
def containsSub (pat : Str) : Str → Bool
  | [] => hasPre [] pat
  | c :: rest => hasPre (c :: rest) pat || containsSub pat rest

/-- Fuel-driven worker for `replaceAll`; with enough fuel it performs the
left-to-right, non-overlapping replacement of Go `strings.Replace`. -/
def replaceGo (old new : Str) : Nat → Str → Str
  | 0, s => s
  | _ + 1, [] => if old = [] then new else []
  | fuel + 1, c :: rest =>
    if old = [] then new ++ c :: replaceGo old new fuel rest
    else if hasPre (c :: rest) old then
      new ++ replaceGo old new fuel ((c :: rest).drop old.length)
    else c :: replaceGo old new fuel rest

/-- Models Go `strings.ReplaceAll s old new`. -/
def replaceAll (s old new : Str) : Str :=
  replaceGo old new (s.length + 1) s

/-- The two-character string `..`. -/
def dd : Str := ['.', '.']

/-- Splits a string at every occurrence of `sep` (like Go `strings.Split`);
the result is always non-empty. -/
def splitSep (sep : Char) : Str → List Str
  | [] => [[]]
  | c :: rest =>
    if c = sep then [] :: splitSep sep rest
    else (c :: (splitSep sep rest).headI) :: (splitSep sep rest).tail

/-- Joins segments with `sep` between them (like Go `strings.Join`). -/
def joinSep (sep : Char) : List Str → Str
  | [] => []
  | [s] => s
  | s :: s2 :: ss => s ++ sep :: joinSep sep (s2 :: ss)

/-- Does the path begin with a slash (Go `path[0] == '/'`). -/
def isRooted (s : Str) : Bool :=
  match s with
  | c :: _ => decide (c = '/')
  | [] => false

/-- One `..` segment applied to the (reversed) segment stack, following
the lexical algorithm of Go `path.Clean`: when rooted, `..` pops a
segment if one is available and is otherwise dropped; when not rooted,
`..` pops a non-`..` segment and otherwise accumulates. -/
def ddStep (rooted : Bool) (stack : List Str) : List Str :=
  match stack with
  | [] => if rooted then [] else [dd]
  | t :: ts => if rooted then ts else if t = dd then dd :: t :: ts else ts

/-- Processes the segment list of a path against a reversed segment
stack: empty and `.` segments are dropped, `..` segments apply
`ddStep`, and every other segment is pushed. -/
def cleanStack (rooted : Bool) : List Str → List Str → List Str
  | stack, [] => stack
  | stack, seg :: rest =>
    if seg = [] ∨ seg = ['.'] then cleanStack rooted stack rest
    else if seg = dd then cleanStack rooted (ddStep rooted stack) rest
    else cleanStack rooted (seg :: stack) rest

/-- Models Go `path.Clean` (the external standard-library routine called
by `normalizePath`): shortest lexically equivalent path, `.` for the
empty result, a single leading slash preserved. -/
def goClean (s : Str) : Str :=
  if s = [] then ['.']
  else if isRooted s then
    '/' :: joinSep '/' (cleanStack true [] (splitSep '/' s)).reverse
  else if joinSep '/' (cleanStack false [] (splitSep '/' s)).reverse = [] then ['.']
  else joinSep '/' (cleanStack false [] (splitSep '/' s)).reverse

/-- Models Go `strings.TrimPrefix s "/"`: drops one leading slash. -/
def trimLeadSlash (s : Str) : Str :=
  match s with
  | c :: rest => if c = '/' then rest else c :: rest
  | [] => []

/-- Models `normalizePath` from backend.go: empty maps to empty,
otherwise `path.Clean`, strip one leading slash, and map `.` to the
empty string denoting the repository root. -/
def normalizePath (p : Str) : Str :=
  if p = [] then []
  else if trimLeadSlash (goClean p) = ['.'] then []
  else trimLeadSlash (goClean p)

/-- A non-nil Go error value as seen by the error classifier: whether it
is a `*github.ErrorResponse`, and—if so—the status of its embedded
`Response` (`none` models a nil `Response`). -/
structure GoErrVal where
  isErrResp : Bool
  errRespStatus : Option Nat
  deriving DecidableEq

/-- The backend-agnostic error taxonomy surfaced by the adapter. -/
inductive BErr where
  | notFound
  | permissionDenied
  | invalidPath
  | backendClosed
  | ctxCanceled
  | cannotDeleteDir (p : Str)
  | wrapped (e : GoErrVal) (respStatus : Option Nat)
  | batchCommitted
  deriving DecidableEq

/-- Models `Backend.translateError` for a non-nil error: the HTTP
response status is inspected first (404 → NotFound, 403/401 →
PermissionDenied), then the structured `ErrorResponse` payload, and
otherwise the error is wrapped. -/
def translateGo (e : GoErrVal) (resp : Option Nat) : BErr :=
  match resp with
  | some 404 => .notFound
  | some 403 => .permissionDenied
  | some 401 => .permissionDenied
  | _ =>
    if e.isErrResp then
      match e.errRespStatus with
      | some 404 => .notFound
      | some 403 => .permissionDenied
      | some 401 => .permissionDenied
      | _ => .wrapped e resp
    else .wrapped e resp

/-- Models `Backend.translateError` including its nil-error short
circuit (`translateError(nil, resp)` returns nil). -/
def translateErrorOpt (err : Option GoErrVal) (resp : Option Nat) : Option BErr :=
  match err with
  | none => none
  | some e => some (translateGo e resp)

/-- Models `validatePath` from backend.go: the empty path is valid
(root); any other path containing the raw substring `..` is rejected
with ErrInvalidPath. -/
def validatePath (p : Str) : Option BErr :=
  if p = [] then none
  else if containsSub dd p then some .invalidPath
  else none

/-- The outcome of one `Repositories.GetContents` call: a file (non-nil
`fileContent` carrying a SHA), a directory (nil `fileContent`, non-nil
directory listing, nil error), or a failure carrying the Go error value
and the status of the `resp` argument (`none` models `resp == nil`). -/
inductive GetContentsRes where
  | file (sha : Str) (resp : Option Nat)
  | dir (resp : Option Nat)
  | fail (e : GoErrVal) (resp : Option Nat)
  deriving DecidableEq

/-- The remote calls the backend can issue, for call-trace accounting. -/
inductive NetCall where
  | getRef
  | getCommit
  | createBlob
  | getContents
  | createTree
  | createCommit
  | updateRef
  | getTree
  | createFile
  | deleteFile
  deriving DecidableEq

/-- World for one `writer.Close` run: backend closed flag, context
state, the lookup outcome, and the `CreateFile` outcome (`none` =
success). -/
structure CloseWorld where
  backendClosed : Bool
  ctxOk : Bool
  lookup : GetContentsRes
  createFileErr : Option (GoErrVal × Option Nat)
  deriving DecidableEq

/-- Result of `writer.Close`: the returned error (`none` = success),
whether the create-or-update mutation was issued, and the version
marker (SHA) it carried. -/
structure CloseResult where
  res : Option BErr
  mutated : Bool
  sentSha : Option Str
  deriving DecidableEq

/-- The mutation step of `writer.Close`: issue `CreateFile` with the
given existing SHA and translate its error. -/
def closeMutate (w : CloseWorld) (sha : Option Str) : CloseResult :=
  match w.createFileErr with
  | none => ⟨none, true, sha⟩
  | some (e, r) => ⟨some (translateGo e r), true, sha⟩

/-- Models `writer.Close` from backend.go (one finalize run; the
writer's own idempotent-closed guard precedes this and is not part of
the claims).  The lookup-error handling mirrors the source: the error
branch is entered only when `resp != nil && resp.StatusCode != 404`,
inside it a structured 404 falls through, a nil `Response` or any other
status returns the classified error, and a non-structured error returns
`translateError(err, resp)` — which is nil when `err` is nil (the
directory case). -/
def writerClose (w : CloseWorld) : CloseResult :=
  if w.backendClosed then ⟨some .backendClosed, false, none⟩
  else if !w.ctxOk then ⟨some .ctxCanceled, false, none⟩
  else
    match w.lookup with
    | .file sha _ => closeMutate w (some sha)
    | .dir resp =>
      match resp with
      | some st =>
        if st ≠ 404 then ⟨translateErrorOpt none resp, false, none⟩
        else closeMutate w none
      | none => closeMutate w none
    | .fail e resp =>
      match resp with
      | some st =>
        if st ≠ 404 then
          if e.isErrResp then
            if e.errRespStatus = some 404 then closeMutate w none
            else ⟨some (translateGo e resp), false, none⟩
          else ⟨some (translateGo e resp), false, none⟩
        else closeMutate w none
      | none => closeMutate w none

/-- Models the commit-message computation inside `Backend.Delete`
(backend.go lines 361-366): the default `Delete <path> via omnistorage`,
or—when a template is configured—substitute the normalized path for
`{path}` and then replace every `Update` with `Delete`. -/
def deleteCommitMessage (cfgMsg : Str) (np : Str) : Str :=
  if cfgMsg = [] then "Delete ".toList ++ np ++ " via omnistorage".toList
  else replaceAll (replaceAll cfgMsg "{path}".toList np) "Update".toList "Delete".toList

/-- World for one `Backend.Delete` run. -/
structure DeleteWorld where
  backendClosed : Bool
  ctxOk : Bool
  lookup : GetContentsRes
  deleteFileErr : Option (GoErrVal × Option Nat)
  deriving DecidableEq

/-- Result of `Backend.Delete`: returned error, whether the
`DeleteFile` mutation was issued, and the commit message it carried. -/
structure DeleteResult where
  res : Option BErr
  mutated : Bool
  sentMessage : Option Str
  deriving DecidableEq

/-- Models `Backend.Delete` from backend.go: lifecycle and context
guards, path validation, the SHA lookup with its 404-is-success
handling, the cannot-delete-a-directory error, and the delete mutation
with the formatted commit message. -/
def backendDelete (w : DeleteWorld) (cfgMsg : Str) (filePath : Str) : DeleteResult :=
  if w.backendClosed then ⟨some .backendClosed, false, none⟩
  else if !w.ctxOk then ⟨some .ctxCanceled, false, none⟩
  else
    match validatePath filePath with
    | some e => ⟨some e, false, none⟩
    | none =>
      if filePath = [] then ⟨some .invalidPath, false, none⟩
      else
        match w.lookup with
        | .fail e resp =>
          if resp = some 404 then ⟨none, false, none⟩
          else if e.isErrResp ∧ e.errRespStatus = some 404 then ⟨none, false, none⟩
          else ⟨some (translateGo e resp), false, none⟩
        | .dir _ => ⟨some (.cannotDeleteDir filePath), false, none⟩
        | .file _ _ =>
          let msg := deleteCommitMessage cfgMsg (normalizePath filePath)
          match w.deleteFileErr with
          | none => ⟨none, true, some msg⟩
          | some (e, r) => ⟨some (translateGo e r), true, some msg⟩

/-- One entry of the recursive tree returned by `Git.GetTree`. -/
structure TEntry where
  path : Str
  typ : Str
  deriving DecidableEq

/-- World for one `Backend.List` run. -/
structure ListWorld where
  backendClosed : Bool
  ctxOk : Bool
  getTree : Except (GoErrVal × Option Nat) (List TEntry)

deriving instance DecidableEq for Except

/-- Result of `Backend.List`: returned value and the calls issued. -/
structure ListResult where
  res : Except BErr (List Str)
  calls : List NetCall
  deriving DecidableEq

/-- The keep-condition of the loop in `Backend.List`: skip non-blob
entries; when the normalized prefix is non-empty, skip entries that
have neither the prefix itself nor `prefix + "/"` as a string prefix. -/
def listKeep (np : Str) (e : TEntry) : Bool :=
  if e.typ ≠ "blob".toList then false
  else if np ≠ [] then hasPre e.path np || hasPre e.path (np ++ ['/'])
  else true

/-- The keep-condition as the spec words it, for comparison: blob
entries whose path equals the normalized prefix or starts with the
prefix followed by a slash. -/
def specListKeep (np : Str) (e : TEntry) : Bool :=
  if e.typ ≠ "blob".toList then false
  else if np ≠ [] then decide (e.path = np) || hasPre e.path (np ++ ['/'])
  else true

/-- Models `Backend.List` from backend.go: lifecycle and context
guards, prefix normalization (no validation), one recursive
`Git.GetTree` call, and the filtering loop. -/
def backendList (w : ListWorld) (p : Str) : ListResult :=
  if w.backendClosed then ⟨.error .backendClosed, []⟩
  else if !w.ctxOk then ⟨.error .ctxCanceled, []⟩
  else
    match w.getTree with
    | .error (e, r) => ⟨.error (translateGo e r), [.getTree]⟩
    | .ok entries =>
      ⟨.ok ((entries.filter (listKeep (normalizePath p))).map TEntry.path), [.getTree]⟩

/-- A queued batch operation (batch source file). -/
inductive BatchOperation where
  | write (path : Str) (content : Str)
  | delete (path : Str)
  deriving DecidableEq

/-- The path of a queued operation. -/
def BatchOperation.path : BatchOperation → Str
  | .write p _ => p
  | .delete p => p

/-- World for one `Batch.Commit` run: the outcome of every remote call
the commit sequence can make.  `lookup` is keyed by the queried path
and backs `Backend.Exists` during entry building; `baseTree` is the
blob map of the base commit's tree, used to model the server-side tree
merge. -/
structure BatchWorld where
  backendClosed : Bool
  ctxOk : Bool
  getRefRes : Except (GoErrVal × Option Nat) Str
  getCommitRes : Except (GoErrVal × Option Nat) Str
  createBlobRes : Str → Except (GoErrVal × Option Nat) Str
  lookup : Str → GetContentsRes
  baseTree : List (Str × Str)
  createTreeErr : Option (GoErrVal × Option Nat)
  createCommitRes : Except (GoErrVal × Option Nat) Str
  updateRefErr : Option (GoErrVal × Option Nat)

/-- Models `Backend.Exists` from backend.go as called during batch
entry building: lifecycle and context guards, validation, then the
GetContents probe with 404 mapped to `false` and success (file or
directory) to `true`. -/
def backendExists (w : BatchWorld) (p : Str) : Except BErr Bool :=
  if w.backendClosed then .error .backendClosed
  else if !w.ctxOk then .error .ctxCanceled
  else
    match validatePath p with
    | some e => .error e
    | none =>
      match w.lookup (normalizePath p) with
      | .fail e resp =>
        if resp = some 404 then .ok false
        else if e.isErrResp ∧ e.errRespStatus = some 404 then .ok false
        else .error (translateGo e resp)
      | _ => .ok true

/-- One tree entry sent to `Git.CreateTree`: a path and an optional
blob SHA (`none` is the deletion sentinel). -/
structure TreeEntry where
  path : Str
  sha : Option Str
  deriving DecidableEq

/-- The tree entries contributed by one queued operation, following
`Batch.buildTreeEntries`: a Write stores a blob and records its SHA; a
Delete probes existence and records a nil-SHA entry only when the path
currently exists, silently dropping the delete otherwise. -/
def opEntries (w : BatchWorld) (op : BatchOperation) : Except BErr (List TreeEntry) :=
  match op with
  | .write p content =>
    match w.createBlobRes content with
    | .error (e, r) => .error (translateGo e r)
    | .ok blobSha => .ok [⟨p, some blobSha⟩]
  | .delete p =>
    match backendExists w p with
    | .error be => .error be
    | .ok true => .ok [⟨p, none⟩]
    | .ok false => .ok []

/-- Models `Batch.buildTreeEntries`: entries of all operations in queue
order, aborting on the first remote failure. -/
def buildTreeEntries (w : BatchWorld) : List BatchOperation → Except BErr (List TreeEntry)
  | [] => .ok []
  | op :: rest =>
    match opEntries w op with
    | .error e => .error e
    | .ok es =>
      match buildTreeEntries w rest with
      | .error e => .error e
      | .ok rest' => .ok (es ++ rest')

/-- The remote calls `buildTreeEntries` issues, in order, stopping at
the first failure. -/
def buildCalls (w : BatchWorld) : List BatchOperation → List NetCall
  | [] => []
  | .write _ content :: rest =>
    .createBlob ::
      (match w.createBlobRes content with
       | .error _ => []
       | .ok _ => buildCalls w rest)
  | .delete p :: rest =>
    .getContents ::
      (match backendExists w p with
       | .error _ => []
       | .ok _ => buildCalls w rest)

/-- First blob SHA recorded for a path in a tree blob map. -/
def treeFind (p : Str) : List (Str × Str) → Option Str
  | [] => none
  | (q, sha) :: rest => if q = p then some sha else treeFind p rest

/-- Whether a path is present in a tree blob map. -/
def treeHas (p : Str) (t : List (Str × Str)) : Bool :=
  (treeFind p t).isSome

/-- Removes every binding of a path from a tree blob map. -/
def treeRemove (p : Str) : List (Str × Str) → List (Str × Str)
  | [] => []
  | (q, sha) :: rest =>
    if q = p then treeRemove p rest else (q, sha) :: treeRemove p rest

/-- Modelled from the spec: how the remote tree-construction API
(`Git.CreateTree`, external to this repository) folds one entry into a
tree: an entry with a blob SHA (re)binds its path, an entry with no
SHA removes the path; processing the entry list in order makes later
entries for the same path win. -/
def applyEntry (t : List (Str × Str)) (e : TreeEntry) : List (Str × Str) :=
  match e.sha with
  | some sha => treeRemove e.path t ++ [(e.path, sha)]
  | none => treeRemove e.path t

/-- Modelled from the spec: the tree produced by `Git.CreateTree` from
a base tree and an entry list (merge by path, last wins). -/
def applyEntries (base : List (Str × Str)) (es : List TreeEntry) : List (Str × Str) :=
  es.foldl applyEntry base

/-- Outcome of `Batch.Commit`: returned error, the committed flag after
the call, the remote calls issued, and—once `Git.CreateTree` has
succeeded—the content of the tree the new commit points at. -/
structure CommitOutcome where
  res : Option BErr
  committedAfter : Bool
  calls : List NetCall
  newTree : Option (List (Str × Str))

/-- Models `Batch.Commit` from the batch source file: the
already-committed, closed-backend and cancelled-context guards, the
empty-queue short-circuit that marks the batch committed with no
network call, then the six-step sequence (resolve ref, resolve base
commit, build entries, create tree, create commit, update ref); any
failure returns the classified error leaving the committed flag
unchanged, and only full success sets it. -/
def batchCommit (w : BatchWorld) (ops : List BatchOperation) (committed : Bool) : CommitOutcome :=
  if committed then ⟨some .batchCommitted, committed, [], none⟩
  else if w.backendClosed then ⟨some .backendClosed, committed, [], none⟩
  else if !w.ctxOk then ⟨some .ctxCanceled, committed, [], none⟩
  else if ops = [] then ⟨none, true, [], none⟩
  else
    match w.getRefRes with
    | .error (e, r) => ⟨some (translateGo e r), committed, [.getRef], none⟩
    | .ok _ =>
      match w.getCommitRes with
      | .error (e, r) => ⟨some (translateGo e r), committed, [.getRef, .getCommit], none⟩
      | .ok _ =>
        match buildTreeEntries w ops with
        | .error be =>
          ⟨some be, committed, .getRef :: .getCommit :: buildCalls w ops, none⟩
        | .ok entries =>
          match w.createTreeErr with
          | some (e, r) =>
            ⟨some (translateGo e r), committed,
              .getRef :: .getCommit :: (buildCalls w ops ++ [.createTree]), none⟩
          | none =>
            match w.createCommitRes with
            | .error (e, r) =>
              ⟨some (translateGo e r), committed,
                .getRef :: .getCommit :: (buildCalls w ops ++ [.createTree, .createCommit]),
                some (applyEntries w.baseTree entries)⟩
            | .ok _ =>
              match w.updateRefErr with
              | some (e, r) =>
                ⟨some (translateGo e r), committed,
                  .getRef :: .getCommit ::
                    (buildCalls w ops ++ [.createTree, .createCommit, .updateRef]),
                  some (applyEntries w.baseTree entries)⟩
              | none =>
                ⟨none, true,
                  .getRef :: .getCommit ::
                    (buildCalls w ops ++ [.createTree, .createCommit, .updateRef]),
                  some (applyEntries w.baseTree entries)⟩

/-! ### Lemmas about splitting and joining path segments -/

theorem headI_mem_of_ne_nil (l : List Str) (h : l ≠ []) : l.headI ∈ l := by
  cases l with
  | nil => exact absurd rfl h
  | cons a as => simp

theorem splitSep_ne_nil (sep : Char) (s : Str) : splitSep sep s ≠ [] := by
  induction s with
  | nil => simp [splitSep]
  | cons c rest ih =>
    simp only [splitSep]
    split <;> simp

theorem mem_splitSep (sep : Char) (s : Str) : ∀ t ∈ splitSep sep s, sep ∉ t := by
  induction s with
  | nil =>
    intro t ht
    simp only [splitSep, List.mem_singleton] at ht
    simp [ht]
  | cons c rest ih =>
    intro t ht
    simp only [splitSep] at ht
    by_cases hc : c = sep
    · rw [if_pos hc] at ht
      rcases List.mem_cons.mp ht with rfl | ht2
      · simp
      · exact ih t ht2
    · rw [if_neg hc] at ht
      rcases List.mem_cons.mp ht with rfl | ht2
      · intro hmem
        rcases List.mem_cons.mp hmem with h1 | h2
        · exact hc h1.symm
        · exact ih _ (headI_mem_of_ne_nil _ (splitSep_ne_nil sep rest)) h2
      · exact ih t (List.mem_of_mem_tail ht2)

theorem splitSep_single (sep : Char) (s : Str) (h : sep ∉ s) : splitSep sep s = [s] := by
  induction s with
  | nil => rfl
  | cons c rest ih =>
    have hc : c ≠ sep := fun hcc => h (by simp [hcc])
    have hrest : sep ∉ rest := fun hm => h (List.mem_cons_of_mem c hm)
    simp only [splitSep, if_neg hc, ih hrest]
    rfl

theorem splitSep_append (sep : Char) (s t : Str) (h : sep ∉ s) :
    splitSep sep (s ++ sep :: t) = s :: splitSep sep t := by
  induction s with
  | nil =>
    simp [splitSep]
  | cons c s' ih =>
    have hc : c ≠ sep := fun hcc => h (by simp [hcc])
    have hs' : sep ∉ s' := fun hm => h (List.mem_cons_of_mem c hm)
    simp only [List.cons_append, splitSep, List.append_eq]
    rw [if_neg hc, ih hs']
    simp

theorem splitSep_join (sep : Char) (segs : List Str) (h0 : segs ≠ [])
    (h1 : ∀ x ∈ segs, sep ∉ x) : splitSep sep (joinSep sep segs) = segs := by
  induction segs with
  | nil => exact absurd rfl h0
  | cons s ss ih =>
    cases ss with
    | nil =>
      simp only [joinSep]
      exact splitSep_single sep s (h1 s (List.mem_cons_self s []))
    | cons s2 ss' =>
      simp only [joinSep]
      rw [splitSep_append sep s _ (h1 s (List.mem_cons_self s _))]
      rw [ih (by simp) (fun x hx => h1 x (List.mem_cons_of_mem s hx))]

theorem joinSep_ne_nil (sep : Char) (segs : List Str) (h0 : segs ≠ [])
    (h1 : ∀ x ∈ segs, x ≠ []) : joinSep sep segs ≠ [] := by
  cases segs with
  | nil => exact absurd rfl h0
  | cons s ss =>
    cases ss with
    | nil => exact h1 s (List.mem_cons_self s [])
    | cons s2 ss' => simp [joinSep]

theorem joinSep_ne_dot (segs : List Str) (h0 : segs ≠ [])
    (h1 : ∀ x ∈ segs, x ≠ [] ∧ x ≠ ['.']) : joinSep '/' segs ≠ ['.'] := by
  cases segs with
  | nil => exact absurd rfl h0
  | cons s ss =>
    cases ss with
    | nil => exact (h1 s (List.mem_cons_self s [])).2
    | cons s2 ss' =>
      intro hcontra
      have hlen := congrArg List.length hcontra
      have hs : s ≠ [] := (h1 s (List.mem_cons_self s _)).1
      have hs1 : 1 ≤ s.length := by
        cases s with
        | nil => exact absurd rfl hs
        | cons a b => simp
      simp only [joinSep, List.length_append, List.length_cons, List.length_nil] at hlen
      omega

theorem isRooted_cons (c : Char) (l : Str) : isRooted (c :: l) = decide (c = '/') := rfl

theorem isRooted_joinSep (segs : List Str) (h0 : segs ≠ [])
    (h1 : ∀ x ∈ segs, x ≠ []) (h2 : ∀ x ∈ segs, '/' ∉ x) :
    isRooted (joinSep '/' segs) = false := by
  cases segs with
  | nil => exact absurd rfl h0
  | cons s ss =>
    have hs : s ≠ [] := h1 s (List.mem_cons_self s _)
    have hsl : '/' ∉ s := h2 s (List.mem_cons_self s _)
    cases s with
    | nil => exact absurd rfl hs
    | cons c cs =>
      have hc : c ≠ '/' := by
        intro hcc
        exact hsl (by simp [hcc])
      cases ss with
      | nil =>
        simp only [joinSep, isRooted_cons]
        simpa using fun hcc => hc hcc
      | cons s2 ss' =>
        simp only [joinSep, List.cons_append, isRooted_cons]
        simpa using fun hcc => hc hcc

theorem trimLeadSlash_of_not_rooted (s : Str) (h : isRooted s = false) :
    trimLeadSlash s = s := by
  cases s with
  | nil => rfl
  | cons c rest =>
    rw [isRooted_cons] at h
    have hc : c ≠ '/' := by simpa using h
    simp [trimLeadSlash, hc]

/-! ### Lemmas about the segment-stack processing of path.Clean -/

/-- A segment that survives normalization: non-empty, not `.`, and
slash-free. -/
def goodSeg (s : Str) : Prop := s ≠ [] ∧ s ≠ ['.'] ∧ '/' ∉ s

theorem cleanStack_append (r : Bool) (L1 L2 : List Str) :
    ∀ st, cleanStack r st (L1 ++ L2) = cleanStack r (cleanStack r st L1) L2 := by
  induction L1 with
  | nil => intro st; rfl
  | cons seg rest ih =>
    intro st
    simp only [List.cons_append, cleanStack]
    split
    · exact ih st
    · split
      · exact ih _
      · exact ih _

theorem ddStep_false_rep (j : Nat) :
    ddStep false (List.replicate j dd) = List.replicate (j + 1) dd := by
  cases j with
  | zero => rfl
  | succ j' => simp [ddStep, List.replicate]

theorem cleanStack_false_dds (k : Nat) :
    ∀ j, cleanStack false (List.replicate j dd) (List.replicate k dd) =
      List.replicate (k + j) dd := by
  induction k with
  | zero =>
    intro j
    simp [List.replicate, cleanStack]
  | succ k' ih =>
    intro j
    have h1 : ¬(dd = [] ∨ dd = ['.']) := by decide
    rw [List.replicate_succ]
    simp only [cleanStack, if_neg h1, if_pos rfl]
    rw [ddStep_false_rep j, ih (j + 1)]
    have h2 : k' + (j + 1) = k' + 1 + j := by omega
    rw [h2]
    simp

theorem cleanStack_false_run (L : List Str)
    (h : ∀ s ∈ L, s ≠ [] ∧ s ≠ ['.'] ∧ s ≠ dd) :
    ∀ st, cleanStack false st L = L.reverse ++ st := by
  induction L with
  | nil => intro st; simp [cleanStack]
  | cons seg rest ih =>
    intro st
    obtain ⟨hn, hd, hdd⟩ := h seg (List.mem_cons_self seg rest)
    have h1 : ¬(seg = [] ∨ seg = ['.']) := by
      rintro (h' | h')
      · exact hn h'
      · exact hd h'
    simp only [cleanStack, if_neg h1, if_neg hdd]
    rw [ih (fun s hs => h s (List.mem_cons_of_mem seg hs)) (seg :: st)]
    simp [List.reverse_cons, List.append_assoc]

theorem cleanStack_false_inv (L : List Str) (hL : ∀ s ∈ L, '/' ∉ s) :
    ∀ st, (∃ rest k, st = rest ++ List.replicate k dd ∧ ∀ s ∈ rest, goodSeg s ∧ s ≠ dd) →
      ∃ rest k, cleanStack false st L = rest ++ List.replicate k dd ∧
        ∀ s ∈ rest, goodSeg s ∧ s ≠ dd := by
  induction L with
  | nil => intro st hst; exact hst
  | cons seg L' ih =>
    intro st hst
    have hL' : ∀ s ∈ L', '/' ∉ s := fun s hs => hL s (List.mem_cons_of_mem seg hs)
    have hseg : '/' ∉ seg := hL seg (List.mem_cons_self seg L')
    by_cases h1 : seg = [] ∨ seg = ['.']
    · simp only [cleanStack, if_pos h1]
      exact ih hL' st hst
    · by_cases h2 : seg = dd
      · simp only [cleanStack, if_neg h1, if_pos h2]
        apply ih hL'
        obtain ⟨rest, k, rfl, hrest⟩ := hst
        cases rest with
        | nil =>
          refine ⟨[], k + 1, ?_, by simp⟩
          simp only [List.nil_append]
          exact ddStep_false_rep k
        | cons t rest' =>
          have ht : t ≠ dd := (hrest t (List.mem_cons_self t rest')).2
          refine ⟨rest', k, ?_, fun s hs => hrest s (List.mem_cons_of_mem t hs)⟩
          simp [ddStep, ht]
      · simp only [cleanStack, if_neg h1, if_neg h2]
        apply ih hL'
        obtain ⟨rest, k, rfl, hrest⟩ := hst
        refine ⟨seg :: rest, k, by simp, ?_⟩
        intro s hs
        rcases List.mem_cons.mp hs with rfl | hs'
        · refine ⟨⟨?_, ?_, hseg⟩, h2⟩
          · intro h'; exact h1 (Or.inl h')
          · intro h'; exact h1 (Or.inr h')
        · exact hrest s hs'

theorem cleanStack_true_inv (L : List Str) (hL : ∀ s ∈ L, '/' ∉ s) :
    ∀ st, (∀ s ∈ st, goodSeg s ∧ s ≠ dd) →
      ∀ s ∈ cleanStack true st L, goodSeg s ∧ s ≠ dd := by
  induction L with
  | nil => intro st hst; exact hst
  | cons seg L' ih =>
    intro st hst
    have hL' : ∀ s ∈ L', '/' ∉ s := fun s hs => hL s (List.mem_cons_of_mem seg hs)
    have hseg : '/' ∉ seg := hL seg (List.mem_cons_self seg L')
    by_cases h1 : seg = [] ∨ seg = ['.']
    · simp only [cleanStack, if_pos h1]
      exact ih hL' st hst
    · by_cases h2 : seg = dd
      · simp only [cleanStack, if_neg h1, if_pos h2]
        apply ih hL'
        cases st with
        | nil => simp [ddStep]
        | cons t ts =>
          simp only [ddStep, if_pos rfl]
          exact fun s hs => hst s (List.mem_cons_of_mem t hs)
      · simp only [cleanStack, if_neg h1, if_neg h2]
        apply ih hL'
        intro s hs
        rcases List.mem_cons.mp hs with rfl | hs'
        · refine ⟨⟨?_, ?_, hseg⟩, h2⟩
          · intro h'; exact h1 (Or.inl h')
          · intro h'; exact h1 (Or.inr h')
        · exact hst s hs'

theorem goClean_rooted (s : Str) (h0 : s ≠ []) (h1 : isRooted s = true) :
    goClean s = '/' :: joinSep '/' (cleanStack true [] (splitSep '/' s)).reverse := by
  rw [goClean, if_neg h0, h1]
  simp

theorem goClean_not_rooted (s : Str) (h0 : s ≠ []) (h1 : isRooted s = false) :
    goClean s =
      if joinSep '/' (cleanStack false [] (splitSep '/' s)).reverse = [] then ['.']
      else joinSep '/' (cleanStack false [] (splitSep '/' s)).reverse := by
  rw [goClean, if_neg h0, h1]
  simp

theorem mem_rep_dd_good (k : Nat) (rest : List Str)
    (hrest : ∀ s ∈ rest, goodSeg s ∧ s ≠ dd) :
    ∀ x ∈ List.replicate k dd ++ rest, x ≠ [] ∧ x ≠ ['.'] ∧ '/' ∉ x := by
  intro x hx
  rcases List.mem_append.mp hx with hx' | hx'
  · have hxd : x = dd := List.eq_of_mem_replicate hx'
    subst hxd
    exact ⟨by decide, by decide, by decide⟩
  · obtain ⟨⟨a, b, c⟩, _⟩ := hrest x hx'
    exact ⟨a, b, c⟩

/-- Every string of the shape `../../seg1/seg2/...` (leading `..`
segments followed by good segments) is a fixed point of
`normalizePath`. -/
theorem normalizePath_fixed (k : Nat) (rest : List Str)
    (hrest : ∀ s ∈ rest, goodSeg s ∧ s ≠ dd)
    (hne : List.replicate k dd ++ rest ≠ []) :
    normalizePath (joinSep '/' (List.replicate k dd ++ rest)) =
      joinSep '/' (List.replicate k dd ++ rest) := by
  have hmem := mem_rep_dd_good k rest hrest
  have hjne : joinSep '/' (List.replicate k dd ++ rest) ≠ [] :=
    joinSep_ne_nil '/' _ hne (fun x hx => (hmem x hx).1)
  have hroot : isRooted (joinSep '/' (List.replicate k dd ++ rest)) = false :=
    isRooted_joinSep _ hne (fun x hx => (hmem x hx).1) (fun x hx => (hmem x hx).2.2)
  have hsplit : splitSep '/' (joinSep '/' (List.replicate k dd ++ rest)) =
      List.replicate k dd ++ rest :=
    splitSep_join '/' _ hne (fun x hx => (hmem x hx).2.2)
  have hstack : cleanStack false [] (List.replicate k dd ++ rest) =
      rest.reverse ++ List.replicate k dd := by
    rw [cleanStack_append false (List.replicate k dd) rest]
    have h0 : cleanStack false [] (List.replicate k dd) = List.replicate k dd := by
      have h := cleanStack_false_dds k 0
      simpa using h
    rw [h0]
    exact cleanStack_false_run rest
      (fun s hs => ⟨(hrest s hs).1.1, (hrest s hs).1.2.1, (hrest s hs).2⟩) _
  have hdot : joinSep '/' (List.replicate k dd ++ rest) ≠ ['.'] :=
    joinSep_ne_dot _ hne (fun x hx => ⟨(hmem x hx).1, (hmem x hx).2.1⟩)
  have hclean : goClean (joinSep '/' (List.replicate k dd ++ rest)) =
      joinSep '/' (List.replicate k dd ++ rest) := by
    rw [goClean_not_rooted _ hjne hroot, hsplit, hstack]
    rw [List.reverse_append, List.reverse_reverse, List.reverse_replicate]
    rw [if_neg hjne]
  rw [normalizePath, if_neg hjne, hclean, trimLeadSlash_of_not_rooted _ hroot, if_neg hdot]

/-- Every output of `normalizePath` is either empty or of the shape
`../../seg1/seg2/...` with good trailing segments. -/
theorem normalizePath_shape (p : Str) (hp : p ≠ []) :
    normalizePath p = [] ∨
    ∃ k rest, (∀ s ∈ rest, goodSeg s ∧ s ≠ dd) ∧
      List.replicate k dd ++ rest ≠ [] ∧
      normalizePath p = joinSep '/' (List.replicate k dd ++ rest) := by
  have hsp : ∀ x ∈ splitSep '/' p, '/' ∉ x := mem_splitSep '/' p
  by_cases hr : isRooted p = true
  · have hst : ∀ s ∈ cleanStack true [] (splitSep '/' p), goodSeg s ∧ s ≠ dd :=
      cleanStack_true_inv _ hsp [] (by simp)
    have hgc := goClean_rooted p hp hr
    cases hrev : (cleanStack true [] (splitSep '/' p)).reverse with
    | nil =>
      left
      rw [normalizePath, if_neg hp, hgc, hrev]
      simp [joinSep, trimLeadSlash]
    | cons s0 ss =>
      have hmem' : ∀ x ∈ s0 :: ss, goodSeg x ∧ x ≠ dd := by
        intro x hx
        exact hst x (List.mem_reverse.mp (hrev ▸ hx))
      have hbne : joinSep '/' (s0 :: ss) ≠ [] :=
        joinSep_ne_nil '/' _ (by simp) (fun x hx => (hmem' x hx).1.1)
      have hbdot : joinSep '/' (s0 :: ss) ≠ ['.'] :=
        joinSep_ne_dot _ (by simp) (fun x hx => ⟨(hmem' x hx).1.1, (hmem' x hx).1.2.1⟩)
      right
      refine ⟨0, s0 :: ss, hmem', by simp, ?_⟩
      rw [normalizePath, if_neg hp, hgc, hrev]
      have htrim : trimLeadSlash ('/' :: joinSep '/' (s0 :: ss)) = joinSep '/' (s0 :: ss) := by
        simp [trimLeadSlash]
      rw [htrim, if_neg hbdot]
      simp
  · have hr' : isRooted p = false := by
      cases hb : isRooted p
      · rfl
      · exact absurd hb hr
    obtain ⟨rest, k, hstack, hrest⟩ :=
      cleanStack_false_inv (splitSep '/' p) hsp [] ⟨[], 0, by simp, by simp⟩
    have hrev : (cleanStack false [] (splitSep '/' p)).reverse =
        List.replicate k dd ++ rest.reverse := by
      rw [hstack, List.reverse_append, List.reverse_replicate]
    have hrestrev : ∀ s ∈ rest.reverse, goodSeg s ∧ s ≠ dd :=
      fun s hs => hrest s (List.mem_reverse.mp hs)
    have hmem := mem_rep_dd_good k rest.reverse hrestrev
    by_cases hnil : List.replicate k dd ++ rest.reverse = []
    · left
      have hgc : goClean p = ['.'] := by
        rw [goClean_not_rooted p hp hr', hrev, hnil]
        simp [joinSep]
      rw [normalizePath, if_neg hp, hgc]
      simp [trimLeadSlash]
    · right
      have hbne : joinSep '/' (List.replicate k dd ++ rest.reverse) ≠ [] :=
        joinSep_ne_nil '/' _ hnil (fun x hx => (hmem x hx).1)
      have hgc : goClean p = joinSep '/' (List.replicate k dd ++ rest.reverse) := by
        rw [goClean_not_rooted p hp hr', hrev, if_neg hbne]
      have hroot2 : isRooted (joinSep '/' (List.replicate k dd ++ rest.reverse)) = false :=
        isRooted_joinSep _ hnil (fun x hx => (hmem x hx).1) (fun x hx => (hmem x hx).2.2)
      have hbdot : joinSep '/' (List.replicate k dd ++ rest.reverse) ≠ ['.'] :=
        joinSep_ne_dot _ hnil (fun x hx => ⟨(hmem x hx).1, (hmem x hx).2.1⟩)
      refine ⟨k, rest.reverse, hrestrev, hnil, ?_⟩
      rw [normalizePath, if_neg hp, hgc, trimLeadSlash_of_not_rooted _ hroot2, if_neg hbdot]

/-! ### Lemmas about error classification -/

theorem translateGo_ne_invalid (e : GoErrVal) (r : Option Nat) :
    translateGo e r ≠ .invalidPath := by
  simp only [translateGo]
  repeat' split
  all_goals simp

theorem notFound_cases (e : GoErrVal) (r : Option Nat) (h : translateGo e r = .notFound) :
    r = some 404 ∨ (e.isErrResp = true ∧ e.errRespStatus = some 404) := by
  simp only [translateGo] at h
  repeat' split at h
  all_goals simp_all

/-! ### Lemmas about batch entry building and the tree merge -/

theorem buildTreeEntries_cons_ok (w : BatchWorld) (op : BatchOperation)
    (rest : List BatchOperation) (e0 es' : List TreeEntry)
    (hop : opEntries w op = .ok e0) (hrest : buildTreeEntries w rest = .ok es') :
    buildTreeEntries w (op :: rest) = .ok (e0 ++ es') := by
  simp [buildTreeEntries, hop, hrest]

theorem buildTreeEntries_cons_inv (w : BatchWorld) (op : BatchOperation)
    (rest : List BatchOperation) (es : List TreeEntry)
    (h : buildTreeEntries w (op :: rest) = .ok es) :
    ∃ e0 es', opEntries w op = .ok e0 ∧ buildTreeEntries w rest = .ok es' ∧ es = e0 ++ es' := by
  cases hop : opEntries w op with
  | error e => simp [buildTreeEntries, hop] at h
  | ok e0 =>
    cases hrest : buildTreeEntries w rest with
    | error e => simp [buildTreeEntries, hop, hrest] at h
    | ok es' =>
      simp only [buildTreeEntries, hop, hrest] at h
      exact ⟨e0, es', rfl, rfl, by simp_all⟩

theorem buildTreeEntries_append (w : BatchWorld) (l1 l2 : List BatchOperation)
    (es : List TreeEntry) (h : buildTreeEntries w (l1 ++ l2) = .ok es) :
    ∃ e1 e2, buildTreeEntries w l1 = .ok e1 ∧ buildTreeEntries w l2 = .ok e2 ∧
      es = e1 ++ e2 := by
  induction l1 generalizing es with
  | nil => exact ⟨[], es, rfl, h, by simp⟩
  | cons op rest ih =>
    rw [List.cons_append] at h
    obtain ⟨e0, es', hop, hrest, rfl⟩ := buildTreeEntries_cons_inv w op (rest ++ l2) _ h
    obtain ⟨e1, e2, h1, h2, rfl⟩ := ih es' hrest
    exact ⟨e0 ++ e1, e2, buildTreeEntries_cons_ok w op rest e0 e1 hop h1, h2,
      by simp [List.append_assoc]⟩

theorem opEntries_paths (w : BatchWorld) (op : BatchOperation) (e0 : List TreeEntry)
    (h : opEntries w op = .ok e0) :
    ∀ ent ∈ e0, ent.path = BatchOperation.path op := by
  cases op with
  | write p content =>
    cases hb : w.createBlobRes content with
    | error er =>
      obtain ⟨e, r⟩ := er
      simp [opEntries, hb] at h
    | ok sha =>
      simp only [opEntries, hb] at h
      intro ent hent
      have he0 : e0 = [⟨p, some sha⟩] := by simp_all
      subst he0
      simp only [List.mem_singleton] at hent
      subst hent
      rfl
  | delete p =>
    cases hb : backendExists w p with
    | error er => simp [opEntries, hb] at h
    | ok b =>
      cases b with
      | true =>
        simp only [opEntries, hb] at h
        intro ent hent
        have he0 : e0 = [⟨p, none⟩] := by simp_all
        subst he0
        simp only [List.mem_singleton] at hent
        subst hent
        rfl
      | false =>
        simp only [opEntries, hb] at h
        intro ent hent
        have he0 : e0 = [] := by simp_all
        subst he0
        simp at hent

theorem build_entry_paths (w : BatchWorld) (ops : List BatchOperation)
    (es : List TreeEntry) (h : buildTreeEntries w ops = .ok es) :
    ∀ ent ∈ es, ent.path ∈ ops.map BatchOperation.path := by
  induction ops generalizing es with
  | nil =>
    have hes : es = [] := by simp_all [buildTreeEntries]
    subst hes
    simp
  | cons op rest ih =>
    obtain ⟨e0, es', hop, hrest, rfl⟩ := buildTreeEntries_cons_inv w op rest es h
    intro ent hent
    rcases List.mem_append.mp hent with h1 | h2
    · simp only [List.map_cons, List.mem_cons]
      exact Or.inl (opEntries_paths w op e0 hop ent h1)
    · simp only [List.map_cons, List.mem_cons]
      exact Or.inr (ih es' hrest ent h2)

theorem treeFind_remove_self (P : Str) (t : List (Str × Str)) :
    treeFind P (treeRemove P t) = none := by
  induction t with
  | nil => rfl
  | cons kv rest ih =>
    obtain ⟨q, sha⟩ := kv
    by_cases hq : q = P
    · simp only [treeRemove, if_pos hq]
      exact ih
    · simp only [treeRemove, if_neg hq, treeFind, if_neg hq]
      exact ih

theorem treeFind_remove_ne (P Q : Str) (h : Q ≠ P) (t : List (Str × Str)) :
    treeFind P (treeRemove Q t) = treeFind P t := by
  induction t with
  | nil => rfl
  | cons kv rest ih =>
    obtain ⟨q, sha⟩ := kv
    by_cases hq : q = Q
    · subst hq
      have hqP : q ≠ P := h
      simp only [treeRemove, if_pos rfl, treeFind, if_neg hqP]
      exact ih
    · simp only [treeRemove, if_neg hq]
      by_cases hqP : q = P
      · simp only [treeFind, if_pos hqP]
      · simp only [treeFind, if_neg hqP]
        exact ih

theorem treeFind_append_right (P : Str) (t1 t2 : List (Str × Str))
    (h : treeFind P t1 = none) : treeFind P (t1 ++ t2) = treeFind P t2 := by
  induction t1 with
  | nil => simp
  | cons kv rest ih =>
    obtain ⟨q, sha⟩ := kv
    by_cases hq : q = P
    · simp [treeFind, hq] at h
    · simp only [treeFind, if_neg hq] at h
      simp only [List.cons_append, treeFind, if_neg hq]
      exact ih h

theorem treeFind_append_left (P : Str) (t1 t2 : List (Str × Str)) (v : Str)
    (h : treeFind P t1 = some v) : treeFind P (t1 ++ t2) = some v := by
  induction t1 with
  | nil => simp [treeFind] at h
  | cons kv rest ih =>
    obtain ⟨q, sha⟩ := kv
    by_cases hq : q = P
    · simp only [treeFind, if_pos hq] at h
      simp only [List.cons_append, treeFind, if_pos hq]
      exact h
    · simp only [treeFind, if_neg hq] at h
      simp only [List.cons_append, treeFind, if_neg hq]
      exact ih h

theorem applyEntry_ne (P : Str) (t : List (Str × Str)) (ent : TreeEntry)
    (h : ent.path ≠ P) : treeFind P (applyEntry t ent) = treeFind P t := by
  obtain ⟨q, sha?⟩ := ent
  have hq : q ≠ P := h
  cases sha? with
  | none => exact treeFind_remove_ne P q hq t
  | some s =>
    simp only [applyEntry]
    cases hfind : treeFind P (treeRemove q t) with
    | none =>
      rw [treeFind_append_right P _ _ hfind]
      rw [← treeFind_remove_ne P q hq t, hfind]
      simp [treeFind, hq]
    | some v =>
      rw [treeFind_append_left P _ _ v hfind]
      rw [← treeFind_remove_ne P q hq t, hfind]

theorem applyEntries_no_target (P : Str) (es : List TreeEntry)
    (h : ∀ ent ∈ es, ent.path ≠ P) :
    ∀ t, treeFind P (applyEntries t es) = treeFind P t := by
  induction es with
  | nil => intro t; rfl
  | cons ent rest ih =>
    intro t
    have h0 : ent.path ≠ P := h ent (List.mem_cons_self ent rest)
    have hrest : ∀ e ∈ rest, e.path ≠ P := fun e he => h e (List.mem_cons_of_mem ent he)
    have ih' := ih hrest (applyEntry t ent)
    simp only [applyEntries, List.foldl_cons] at ih' ⊢
    rw [ih']
    exact applyEntry_ne P t ent h0

theorem applyEntries_delete_last (P : Str) (es1 es2 : List TreeEntry)
    (t : List (Str × Str)) (h2 : ∀ ent ∈ es2, ent.path ≠ P) :
    treeFind P (applyEntries t (es1 ++ TreeEntry.mk P none :: es2)) = none := by
  have h3 := applyEntries_no_target P es2 h2
    (applyEntry (List.foldl applyEntry t es1) (TreeEntry.mk P none))
  simp only [applyEntries] at h3 ⊢
  rw [List.foldl_append, List.foldl_cons, h3]
  exact treeFind_remove_self P _

theorem batchCommit_newTree (w : BatchWorld) (ops : List BatchOperation)
    (committed : Bool) (t : List (Str × Str))
    (h : (batchCommit w ops committed).newTree = some t) :
    ∃ es, buildTreeEntries w ops = .ok es ∧ t = applyEntries w.baseTree es := by
  simp only [batchCommit] at h
  repeat' split at h
  all_goals simp_all

/-! ### Concrete worlds used by the claim theorems -/

/-- A batch world whose base tree is empty and whose content lookups all
fail with HTTP 404 (no path exists yet); every mutation succeeds. -/
def emptyBaseWorld : BatchWorld :=
  ⟨false, true, .ok "c0".toList, .ok "t0".toList, fun _ => .ok "b1".toList,
    fun _ => .fail ⟨false, none⟩ (some 404), [], none, .ok "c1".toList, none⟩

/-- A batch world whose base tree binds `p.txt` to blob `b0` and whose
content lookups all report that file; every mutation succeeds. -/
def occupiedBaseWorld : BatchWorld :=
  ⟨false, true, .ok "c0".toList, .ok "t0".toList, fun _ => .ok "b1".toList,
    fun _ => .file "b0".toList (some 200), [("p.txt".toList, "b0".toList)],
    none, .ok "c1".toList, none⟩

/-- A batch world whose branch-ref resolution fails with HTTP 500. -/
def refFailWorld : BatchWorld :=
  ⟨false, true, .error (⟨false, none⟩, some 500), .ok "t0".toList,
    fun _ => .ok "b1".toList, fun _ => .fail ⟨false, none⟩ (some 404), [],
    none, .ok "c1".toList, none⟩

/-- A list world whose recursive tree holds a single blob at
`ab/other.txt`. -/
def siblingTreeWorld : ListWorld :=
  ⟨false, true, .ok [⟨"ab/other.txt".toList, "blob".toList⟩]⟩

/-- A list world whose recursive tree call succeeds with no entries. -/
def emptyTreeWorld : ListWorld := ⟨false, true, .ok []⟩

/-- A writer-close world whose lookup fails with a transport error
carrying no HTTP response at all (`err != nil`, `resp == nil`). -/
def transportFailCloseWorld : CloseWorld := ⟨false, true, .fail ⟨false, none⟩ none, none⟩

/-- A writer-close world whose lookup resolves to a directory (HTTP
200, nil `fileContent`). -/
def dirCloseWorld : CloseWorld := ⟨false, true, .dir (some 200), none⟩

/-- A delete world whose lookup fails with HTTP 404. -/
def notFoundDeleteWorld : DeleteWorld := ⟨false, true, .fail ⟨false, none⟩ (some 404), none⟩

/-- A delete world whose lookup resolves to a directory. -/
def dirDeleteWorld : DeleteWorld := ⟨false, true, .dir (some 200), none⟩

/-- A delete world whose lookup resolves to a file with SHA `b0`. -/
def fileDeleteWorld : DeleteWorld := ⟨false, true, .file "b0".toList (some 200), none⟩

/-! ### Claim theorems -/

/-- C1 (counterexample): with an empty base tree, a batch queuing
`Write p.txt` before `Delete p.txt` commits successfully, yet the
committed tree still CONTAINS `p.txt` (the delete was dropped because
the finalize-time existence check consulted the remote store, where the
queued write has not landed yet) — refuting the claim's "regardless of
whether P existed in the base tree". -/
theorem C1_write_then_delete_cex :
    (batchCommit emptyBaseWorld
      [.write "p.txt".toList "x".toList, .delete "p.txt".toList] false).res = none ∧
    (batchCommit emptyBaseWorld
      [.write "p.txt".toList "x".toList, .delete "p.txt".toList] false).newTree =
      some [("p.txt".toList, "b1".toList)] ∧
    treeHas "p.txt".toList [("p.txt".toList, "b1".toList)] = true := by
  refine ⟨by decide, by decide, by decide⟩

/-- C1 (amended): for every batch in which a Write of path P is queued
before a Delete of the same path P, with no later operation on P, and
whose commit-time existence check finds P present (as it is whenever P
existed in the base tree), Batch.Commit produces a commit whose tree
omits P — the later Delete wins over the earlier Write. -/
theorem C1_write_then_delete (w : BatchWorld) (pre mid post : List BatchOperation)
    (P c : Str) (t : List (Str × Str))
    (hpost : ∀ op ∈ post, BatchOperation.path op ≠ P)
    (hex : backendExists w P = .ok true)
    (ht : (batchCommit w (pre ++ .write P c :: (mid ++ .delete P :: post)) false).newTree =
      some t) :
    treeHas P t = false := by
  obtain ⟨es, hbuild, rfl⟩ := batchCommit_newTree w _ false t ht
  obtain ⟨e1, e2, hb1, hb2, rfl⟩ := buildTreeEntries_append w pre _ es hbuild
  obtain ⟨ew, e3, hopw, hb3, rfl⟩ := buildTreeEntries_cons_inv w _ _ _ hb2
  obtain ⟨e4, e5, hb4, hb5, rfl⟩ := buildTreeEntries_append w mid _ _ hb3
  obtain ⟨ed, e6, hopd, hb6, rfl⟩ := buildTreeEntries_cons_inv w _ _ _ hb5
  have hed : ed = [TreeEntry.mk P none] := by
    simp only [opEntries, hex] at hopd
    simp_all
  subst hed
  have hpaths : ∀ ent ∈ e6, ent.path ≠ P := by
    intro ent hent
    have hmem := build_entry_paths w post e6 hb6 ent hent
    rw [List.mem_map] at hmem
    obtain ⟨op, hop', hpe⟩ := hmem
    rw [← hpe]
    exact hpost op hop'
  have hassoc : e1 ++ (ew ++ (e4 ++ ([TreeEntry.mk P none] ++ e6))) =
      (e1 ++ ew ++ e4) ++ TreeEntry.mk P none :: e6 := by
    simp [List.append_assoc]
  rw [treeHas, hassoc, applyEntries_delete_last P (e1 ++ ew ++ e4) e6 w.baseTree hpaths]
  rfl

theorem C1_write_then_delete_witness :
    backendExists occupiedBaseWorld "p.txt".toList = .ok true ∧
    (batchCommit occupiedBaseWorld
      [.write "p.txt".toList "x".toList, .delete "p.txt".toList] false).newTree = some [] ∧
    treeHas "p.txt".toList [] = false :=
  ⟨by decide, by decide,
    C1_write_then_delete occupiedBaseWorld [] [] [] "p.txt".toList "x".toList []
      (by decide) (by decide) (by decide)⟩

/-- C2 (code evaluation): with prefix "a" and a recursive tree holding
the single blob `ab/other.txt`, List RETURNS that entry (the filter is
a plain string-prefix test), while the spec's wording (path equals the
prefix or extends it with a slash) would exclude it. -/
theorem C2_list_filter_eval :
    (backendList siblingTreeWorld "a".toList).res = .ok ["ab/other.txt".toList] ∧
    listKeep "a".toList ⟨"ab/other.txt".toList, "blob".toList⟩ = true ∧
    specListKeep "a".toList ⟨"ab/other.txt".toList, "blob".toList⟩ = false := by
  refine ⟨by decide, by decide, by decide⟩

/-- C3 (code evaluation): a finalize-time lookup failure carrying no
HTTP response is silently swallowed — Close proceeds to issue the
create-or-update mutation with no version marker and returns success —
and a lookup resolving to a directory makes Close return success
without issuing any mutation; the swallowed failure is not classified
NotFound. -/
theorem C3_writer_close_eval :
    writerClose transportFailCloseWorld = ⟨none, true, none⟩ ∧
    writerClose dirCloseWorld = ⟨none, false, none⟩ ∧
    translateGo ⟨false, none⟩ none ≠ .notFound := by
  refine ⟨by decide, by decide, by decide⟩

/-- C4: for a non-empty, not-yet-committed batch, Commit leaves the
batch Committed exactly when the whole sequence succeeded: the
committed flag is true after the call iff the call returned success. -/
theorem C4_commit_flag (w : BatchWorld) (ops : List BatchOperation) (h : ops ≠ []) :
    ((batchCommit w ops false).committedAfter = true) ↔
      ((batchCommit w ops false).res = none) := by
  simp only [batchCommit]
  repeat' split
  all_goals simp_all

theorem C4_commit_flag_witness :
    ((batchCommit refFailWorld [.write "p.txt".toList "x".toList] false).committedAfter = true) ↔
      ((batchCommit refFailWorld [.write "p.txt".toList "x".toList] false).res = none) :=
  C4_commit_flag refFailWorld [.write "p.txt".toList "x".toList] (by decide)

/-- C5: committing a batch with an empty queue on an open backend with
a live context issues zero network calls, marks the batch Committed and
returns success. -/
theorem C5_empty_batch (w : BatchWorld) (h1 : w.backendClosed = false)
    (h2 : w.ctxOk = true) :
    batchCommit w [] false = ⟨none, true, [], none⟩ := by
  simp [batchCommit, h1, h2]

theorem C5_empty_batch_witness :
    batchCommit emptyBaseWorld [] false = ⟨none, true, [], none⟩ :=
  C5_empty_batch emptyBaseWorld rfl rfl

/-- C6: past the guards, a Delete whose lookup failure is classified
NotFound returns success with no mutation issued, and a Delete whose
lookup resolves to a directory fails with the cannot-delete-a-directory
error (and likewise issues no mutation). -/
theorem C6_delete_semantics (w : DeleteWorld) (cfg p : Str)
    (h1 : w.backendClosed = false) (h2 : w.ctxOk = true)
    (h3 : validatePath p = none) (h4 : p ≠ []) :
    (∀ e r, w.lookup = .fail e r → translateGo e r = .notFound →
      backendDelete w cfg p = ⟨none, false, none⟩) ∧
    (∀ r, w.lookup = .dir r →
      backendDelete w cfg p = ⟨some (.cannotDeleteDir p), false, none⟩) := by
  constructor
  · intro e r hl hnf
    rcases notFound_cases e r hnf with hc | hc
    · simp [backendDelete, h1, h2, h3, h4, hl, hc]
    · by_cases hr4 : r = some 404
      · simp [backendDelete, h1, h2, h3, h4, hl, hr4]
      · simp [backendDelete, h1, h2, h3, h4, hl, hr4, hc.1, hc.2]
  · intro r hl
    simp [backendDelete, h1, h2, h3, h4, hl]

theorem C6_delete_semantics_witness :
    backendDelete notFoundDeleteWorld [] "x.txt".toList = ⟨none, false, none⟩ ∧
    backendDelete dirDeleteWorld [] "x.txt".toList =
      ⟨some (.cannotDeleteDir "x.txt".toList), false, none⟩ :=
  ⟨(C6_delete_semantics notFoundDeleteWorld [] "x.txt".toList rfl rfl (by decide)
      (by decide)).1 ⟨false, none⟩ (some 404) rfl (by decide),
    (C6_delete_semantics dirDeleteWorld [] "x.txt".toList rfl rfl (by decide)
      (by decide)).2 (some 200) rfl⟩

/-- C7: normalizePath is idempotent on every input, and maps each of
"", "." and "/" to the empty string denoting the repository root. -/
theorem C7_normalize_idem :
    (∀ p : Str, normalizePath (normalizePath p) = normalizePath p) ∧
    normalizePath "".toList = "".toList ∧
    normalizePath ".".toList = "".toList ∧
    normalizePath "/".toList = "".toList := by
  refine ⟨?_, by decide, by decide, by decide⟩
  intro p
  by_cases hp : p = []
  · subst hp
    decide
  · rcases normalizePath_shape p hp with h | ⟨k, rest, hrest, hne, h⟩
    · rw [h]
      decide
    · rw [h]
      exact normalizePath_fixed k rest hrest hne

/-- C8: every non-empty path containing the two-character substring
`..` anywhere is rejected by validatePath with ErrInvalidPath — in
particular `a..b`, which contains no `..` path segment, is rejected, so
validation is strictly broader than rejecting `..` segments. -/
theorem C8_validate_dotdot :
    (∀ p : Str, p ≠ [] → containsSub dd p = true → validatePath p = some .invalidPath) ∧
    validatePath "a..b".toList = some .invalidPath ∧
    ((splitSep '/' "a..b".toList).any fun s => decide (s = dd)) = false := by
  refine ⟨?_, by decide, by decide⟩
  intro p h1 h2
  simp [validatePath, h1, h2]

theorem C8_validate_dotdot_witness :
    ("file..txt".toList ≠ ([] : Str)) ∧ containsSub dd "file..txt".toList = true ∧
    validatePath "file..txt".toList = some .invalidPath :=
  ⟨by decide, by decide, C8_validate_dotdot.1 "file..txt".toList (by decide) (by decide)⟩

/-- C9: with a custom template, Delete builds its commit message by
first substituting the normalized path for `{path}` and then replacing
every occurrence of `Update` by `Delete` in the whole result; the
mutation carries exactly that message, and a path containing `Update`
(such as `Updates/a.txt`) is rewritten inside the message. -/
theorem C9_delete_message :
    (∀ tmpl np : Str, tmpl ≠ [] →
      deleteCommitMessage tmpl np =
        replaceAll (replaceAll tmpl "{path}".toList np) "Update".toList "Delete".toList) ∧
    (∀ (w : DeleteWorld) (cfg p sha : Str) (r : Option Nat),
      w.backendClosed = false → w.ctxOk = true → validatePath p = none → p ≠ [] →
      w.lookup = .file sha r → w.deleteFileErr = none →
      (backendDelete w cfg p).sentMessage = some (deleteCommitMessage cfg (normalizePath p))) ∧
    deleteCommitMessage "Update {path} via omnistorage".toList
        (normalizePath "Updates/a.txt".toList) =
      "Delete Deletes/a.txt via omnistorage".toList := by
  refine ⟨?_, ?_, by decide⟩
  · intro tmpl np h
    simp [deleteCommitMessage, h]
  · intro w cfg p sha r h1 h2 h3 h4 h5 h6
    simp [backendDelete, h1, h2, h3, h4, h5, h6]

theorem C9_delete_message_witness :
    deleteCommitMessage "Update {path}".toList "a.txt".toList =
      replaceAll (replaceAll "Update {path}".toList "{path}".toList "a.txt".toList)
        "Update".toList "Delete".toList ∧
    (backendDelete fileDeleteWorld "Update {path}".toList "a.txt".toList).sentMessage =
      some (deleteCommitMessage "Update {path}".toList (normalizePath "a.txt".toList)) :=
  ⟨C9_delete_message.1 "Update {path}".toList "a.txt".toList (by decide),
    C9_delete_message.2.1 fileDeleteWorld "Update {path}".toList "a.txt".toList
      "b0".toList (some 200) rfl rfl (by decide) (by decide) rfl rfl⟩

/-- C10: List never validates its prefix: for every world and every
prefix (including ones containing `..`) its result is never
ErrInvalidPath, and past the lifecycle guards it always issues the
recursive-tree call; by contrast Delete rejects an invalid path before
any network call. -/
theorem C10_list_no_validate :
    (∀ (w : ListWorld) (p : Str), (backendList w p).res ≠ .error .invalidPath) ∧
    (∀ (w : ListWorld) (p : Str), w.backendClosed = false → w.ctxOk = true →
      (backendList w p).calls = [.getTree]) ∧
    (∀ (w : DeleteWorld) (cfg p : Str), w.backendClosed = false → w.ctxOk = true →
      validatePath p = some .invalidPath →
      backendDelete w cfg p = ⟨some .invalidPath, false, none⟩) := by
  refine ⟨?_, ?_, ?_⟩
  · intro w p
    cases h1 : w.backendClosed with
    | true => simp [backendList, h1]
    | false =>
      cases h2 : w.ctxOk with
      | false => simp [backendList, h1, h2]
      | true =>
        cases hgt : w.getTree with
        | error er =>
          obtain ⟨e, r⟩ := er
          simp only [backendList, h1, h2, hgt]
          simp [translateGo_ne_invalid e r]
        | ok entries => simp [backendList, h1, h2, hgt]
  · intro w p h1 h2
    cases hgt : w.getTree with
    | error er =>
      obtain ⟨e, r⟩ := er
      simp [backendList, h1, h2, hgt]
    | ok entries => simp [backendList, h1, h2, hgt]
  · intro w cfg p h1 h2 h3
    simp [backendDelete, h1, h2, h3]

theorem C10_list_no_validate_witness :
    (backendList emptyTreeWorld "../secret".toList).res ≠ .error .invalidPath ∧
    (backendList emptyTreeWorld "../secret".toList).calls = [.getTree] ∧
    backendDelete notFoundDeleteWorld [] "../secret".toList =
      ⟨some .invalidPath, false, none⟩ :=
  ⟨C10_list_no_validate.1 emptyTreeWorld "../secret".toList,
    C10_list_no_validate.2.1 emptyTreeWorld "../secret".toList rfl rfl,
    C10_list_no_validate.2.2 notFoundDeleteWorld [] "../secret".toList rfl rfl (by decide)⟩

end OmniGitHub
